import Mathlib

/-!
Shallow embedding of the measurement post-processing pipeline of the
RIKEN-natsu-intern repository: qubit-role classification and measurement
demultiplexing (`src/simulator.py`, `StimErrorSimulator.measurement_mapper`),
round arranging (`src/good_stuff.py`, `arranging_good_stuff`) and bitstream
encoding (`src/bitstreamer.py`, `bitstreamer`), together with theorems
settling the specification claims about them.

Python integers are modelled as `Int` (or `Nat` where the source value is a
length or index that is non-negative by construction), Python lists as
`List`, Python dicts either as association lists (`List (key × value)`,
insertion-ordered like CPython dicts) or as typed structures when the source
builds a fixed-shape dict, and fallible code returns `Except PyErr`.

Python sets are embedded as duplicate-free lists in first-insertion order
(`pyset_add` ignores elements already present).  This keeps every
set operation structurally computable while preserving set semantics: the
source compares sets only with `==`/`!=`, embedded as the extensional
`pyset_eqb`, and iterates sets either after an explicit `sorted(...)`
(embedded as the structural ascending sort `sort_asc`) or in CPython's
implementation-defined raw order (embedded as an explicit oracle argument
where it matters).
-/

/-- A circuit instruction as exposed by the external circuit library: an
operation name and an ordered list of integer qubit targets
(`simulator.py` reads `inst.name` and `[t.value for t in inst.targets_copy()]`). -/
structure Instr where
  name : String
  targets : List Nat
deriving DecidableEq

/-- The three accumulator sets built by the instruction scan in
`measurement_mapper` (`h_qubits`, `mr_qubits`, `m_qubits`), each a Python
set embedded as a duplicate-free list in first-insertion order. -/
structure QubitSets where
  h_qubits : List Nat
  mr_qubits : List Nat
  m_qubits : List Nat
deriving DecidableEq

/-- Python exceptions raised by the embedded code, with the data that the
corresponding message interpolates carried as payload:
`runtimeError` is the length-mismatch `RuntimeError` of `measurement_mapper`
(message interpolates the set of observed lengths and the expected length);
`nameError` is an unbound-variable `NameError` naming the variable;
`zeroDivisionError` is the `ZeroDivisionError` of `//`;
`valueErrorRangeStep` is the `ValueError` raised by `range()` on step 0;
`valueErrorFormat` is the `ValueError` of `bitstreamer`
(message interpolates the offending format character). -/
inductive PyErr where
  | runtimeError (lengths : List Int) (expected : Int)
  | nameError (name : String)
  | zeroDivisionError
  | valueErrorRangeStep
  | valueErrorFormat (c : Char)
deriving DecidableEq

/-- One labeled measurement tuple `(value, qubit, role)` as appended to
`mapped_result` in `measurement_mapper`. -/
structure LabeledM where
  value : Bool
  qubit : Nat
  role : String
deriving DecidableEq

/-- The `metadata` dict built at the end of `measurement_mapper`.  The source
stores each entry as `{"values": ..., "count": len(...)}`; the count is the
length of the stored list, so only the lists are carried here. -/
structure MapperMeta where
  dataQubits : List Nat
  mrQubits : List Nat
  hQubits : List Nat
  mrOnly : List Nat
deriving DecidableEq

/-- The dict `{"meta": metadata, "mapped": big_mapped_res}` returned by
`measurement_mapper`. -/
structure MapperOutput where
  meta : MapperMeta
  mapped : List (List LabeledM)
deriving DecidableEq

/-- Embedding of `chunk_list` from `src/helper.py` (identical copy in
`src/good_stuff.py`): `rpt` chunks of size `chunk_size` taken from the front
of `lst` (Python slices clamp, as `drop`/`take` do), followed by the
remaining elements as one final chunk if any remain.  The Python parameter
is called `repeat`. -/
def chunk_list (lst : List α) (chunk_size : Nat) (rpt : Nat) : List (List α) :=
  (List.range rpt).map (fun k => (lst.drop (k * chunk_size)).take chunk_size) ++
    (if rpt * chunk_size < lst.length then [lst.drop (rpt * chunk_size)] else [])

/-- Adding one element to a Python set: a no-op when the element is
already present, otherwise appended (CPython sets are iterated in an
implementation-defined order; first-insertion order is the canonical
duplicate-free representative used here). -/
def pyset_add [DecidableEq α] (s : List α) (x : α) : List α :=
  if x ∈ s then s else s ++ [x]

/-- Python's `set.update(xs)`: add every element of `xs` in order. -/
def pyset_update [DecidableEq α] (s : List α) (xs : List α) : List α :=
  xs.foldl pyset_add s

/-- Python's `==` on sets is extensional; on the duplicate-free list
representation it is mutual containment. -/
def pyset_eqb [DecidableEq α] (a b : List α) : Bool :=
  a.all (fun x => x ∈ b) && b.all (fun x => x ∈ a)

/-- Insertion into an ascending list (helper for `sort_asc`). -/
def insert_asc (a : Nat) : List Nat → List Nat
  | [] => [a]
  | b :: bs => if a ≤ b then a :: b :: bs else b :: insert_asc a bs

/-- Structural ascending insertion sort, the embedding of Python's
`sorted(...)` on a set of qubit indices (distinct numbers, so any ascending
sort is the exact embedding). -/
def sort_asc (l : List Nat) : List Nat :=
  l.foldr insert_asc []

/-- Prefix test on char lists, structural embedding of Python's
`str.startswith` (which compares code points from the front). -/
def starts_with_chars : List Char → List Char → Bool
  | [], _ => true
  | _ :: _, [] => false
  | p :: ps, c :: cs => p == c && starts_with_chars ps cs

/-- Python's `name.startswith(pre)`. -/
def py_startswith (name pre : String) : Bool :=
  starts_with_chars pre.data name.data

/-- One step of the instruction scan of `measurement_mapper`
(`if name == "H" ... elif name == "MR" ... elif name.startswith("M")`).
Note that `MR` instructions are consumed by the second branch and hence are
never added to `m_qubits`. -/
def scan_step (st : QubitSets) (inst : Instr) : QubitSets :=
  if inst.name = "H" then
    { st with h_qubits := pyset_update st.h_qubits inst.targets }
  else if inst.name = "MR" then
    { st with mr_qubits := pyset_update st.mr_qubits inst.targets }
  else if py_startswith inst.name "M" then
    { st with m_qubits := pyset_update st.m_qubits inst.targets }
  else st

/-- The full instruction scan of `measurement_mapper` (`for inst in circuit`),
starting from three empty sets. -/
def scan_instructions (insts : List Instr) : QubitSets :=
  insts.foldl scan_step ⟨[], [], []⟩

/-- Expected measurement-vector length computed in `measurement_mapper`:
`expected_len = r * (d**2 - 1) + d**2` with Python (signed, unbounded)
integer arithmetic. -/
def expected_length (distance rounds : Nat) : Int :=
  (rounds : Int) * ((distance : Int) ^ 2 - 1) + (distance : Int) ^ 2

/-- The set `lengths = {len(shot) for shot in measurements_out}`. -/
def shot_lengths (measurements_out : List (List Bool)) : List Int :=
  pyset_update [] (measurements_out.map (fun s => (s.length : Int)))

/-- The body of the per-shot loop of `measurement_mapper`: chunk the raw
vector with `chunk_list(each_measurement, len(mr_qubits), repeat=r)`, take
the first `rounds` chunks as ancilla rounds and the last chunk as the data
chunk (`chunked[-1]`), zip each ancilla chunk positionally against the
iteration order of `mr_qubits` labeling by membership in `h_qubits`, and
zip the data chunk against the iteration order of `m_qubits`. -/
def map_one_shot (sets : QubitSets) (rounds : Nat) (mr_list m_list : List Nat)
    (each_measurement : List Bool) : List LabeledM :=
  (((chunk_list each_measurement mr_list.length rounds).take rounds).map (fun item =>
    (item.zip mr_list).map (fun i =>
      { value := i.1, qubit := i.2,
        role := if i.2 ∈ sets.h_qubits then "ancx" else "ancz" : LabeledM }))).flatten
  ++ (((chunk_list each_measurement mr_list.length rounds).getLastD []).zip m_list).map (fun i =>
      { value := i.1, qubit := i.2, role := "data" : LabeledM })

/-- Embedding of `StimErrorSimulator.measurement_mapper`.

`setIter` models CPython's implementation-defined iteration order over a
`set` of ints (a permutation of the canonical duplicate-free list); it is
consulted only on the `logging == False` path, where the source zips chunks
against the raw (never sorted) sets `mr_qubits` and `m_qubits`.  On the
`logging == True` path the source rebinds those names to `sorted(...)`
lists before the shot loop, embedded with `sort_asc`.

The source raises the length-mismatch `RuntimeError` before anything else.
The per-shot loop then runs in both logging modes; when `logging` is false
its result is discarded, because the `metadata` dict built after the loop
reads `mr_only`, a variable assigned only inside the `if logging:` block, so
the call raises `NameError` before returning. -/
def measurement_mapper (setIter : List Nat → List Nat) (insts : List Instr)
    (distance rounds : Nat) (measurements_out : List (List Bool)) (logging : Bool) :
    Except PyErr MapperOutput :=
  let expected_len := expected_length distance rounds
  let lengths := shot_lengths measurements_out
  if pyset_eqb lengths [expected_len] = false then
    .error (.runtimeError lengths expected_len)
  else
    let sets := scan_instructions insts
    let mr_list : List Nat :=
      if logging then sort_asc sets.mr_qubits else setIter sets.mr_qubits
    let m_list : List Nat :=
      if logging then sort_asc sets.m_qubits else setIter sets.m_qubits
    let big_mapped_res : List (List LabeledM) :=
      measurements_out.map (map_one_shot sets rounds mr_list m_list)
    if logging then
      .ok { meta := { dataQubits := sort_asc sets.m_qubits,
                      mrQubits := sort_asc sets.mr_qubits,
                      hQubits := sort_asc sets.h_qubits,
                      mrOnly := sort_asc (sets.mr_qubits.filter
                        (fun q => q ∉ sets.h_qubits)) },
            mapped := big_mapped_res }
    else
      .error (.nameError "mr_only")

/-- Qubits that the demultiplex loop labels `"ancx"`: measurement-reset
qubits passing the membership test `i[1] in h_qubits`. -/
def ancx_set (s : QubitSets) : List Nat :=
  s.mr_qubits.filter (fun q => q ∈ s.h_qubits)

/-- Qubits that the demultiplex loop labels `"ancz"`: measurement-reset
qubits failing the membership test `i[1] in h_qubits`. -/
def ancz_set (s : QubitSets) : List Nat :=
  s.mr_qubits.filter (fun q => q ∉ s.h_qubits)

/-- One packed measurement, the dict
`{"qubit": ..., "value": ..., "type": ..., "coords": ...}` produced by
`packing_good_stuff` and consumed by `arranging_good_stuff`.  The stim
qubit coordinates of the circuits in use are integral, so coordinates are
modelled as a pair of `Int`. -/
structure PackedQ where
  qubit : Nat
  value : Bool
  type : String
  coords : Int × Int
deriving DecidableEq

/-- One round record `{"round": r + 1, "ord_qubits": sorted(...)}` of
`arranging_good_stuff`. -/
structure RoundRec where
  round : Nat
  ord_qubits : List PackedQ
deriving DecidableEq

/-- The data record `{"ord_qubits": sorted(...)}` of `arranging_good_stuff`
(no round field). -/
structure DataRec where
  ord_qubits : List PackedQ
deriving DecidableEq

/-- One shot record `{"ancx": ..., "ancz": ..., "data": ...}` of
`arranging_good_stuff`. -/
structure ShotRec where
  ancx : List RoundRec
  ancz : List RoundRec
  data : DataRec
deriving DecidableEq

/-- The sort key `lambda q: (q["coords"][0], q["coords"][1])` used by every
`sorted` call in `arranging_good_stuff`, as the lexicographic order it
induces on packed measurements: strictly smaller x-coordinate, or equal
x-coordinate and smaller-or-equal y-coordinate. -/
def key_le (p q : PackedQ) : Prop :=
  p.coords.1 < q.coords.1 ∨ (p.coords.1 = q.coords.1 ∧ p.coords.2 ≤ q.coords.2)

instance : DecidableRel key_le := fun p q => by
  unfold key_le; infer_instance

instance : IsTotal PackedQ key_le := by
  constructor
  intro a b
  unfold key_le
  omega

instance : IsTrans PackedQ key_le := by
  constructor
  intro a b c hab hbc
  unfold key_le at *
  omega

instance : IsRefl PackedQ key_le := by
  constructor
  intro a
  unfold key_le
  omega

/-- Embedding of Python's `sorted(lst, key=lambda q: (coords[0], coords[1]))`.
CPython's sort is the stable ascending sort for the key order, and the stable
ascending sort for a total preorder is unique, so any stable sorting
algorithm is an exact embedding; `List.insertionSort` inserts each element
in front of later elements with an equal key and hence is stable. -/
def pySorted (l : List PackedQ) : List PackedQ :=
  l.insertionSort key_le

/-- The relationship between a `sorted(...)` output and its input list:
ascending in the (x, y) key order, a permutation of the input, and stable,
i.e. elements with equal keys appear in their original relative order
(expressed as: filtering on any one key value commutes with the sort). -/
def stable_sorted_of (out src : List PackedQ) : Prop :=
  out.Sorted key_le ∧ out.Perm src ∧
    ∀ k : Int × Int, out.filter (fun q => q.coords = k) = src.filter (fun q => q.coords = k)

/-- Embedding of Python's `range(0, stop, step)` for non-negative arguments:
`range` raises `ValueError` when the step is zero, otherwise yields the
multiples of `step` below `stop` (there are ⌈stop/step⌉ of them). -/
def pyRange (stop step : Nat) : Except PyErr (List Nat) :=
  if step = 0 then .error .valueErrorRangeStep
  else .ok ((List.range ((stop + step - 1) / step)).map (· * step))

/-- The round-grouping list comprehension of `arranging_good_stuff`:
`[{"round": r + 1, "ord_qubits": sorted(lst[i : i + num], key=...)}
   for r, i in enumerate(range(0, len(lst), num))]`. -/
def group_by_round (lst : List PackedQ) (num : Nat) : Except PyErr (List RoundRec) :=
  (pyRange lst.length num).map (fun idxs =>
    idxs.enum.map (fun ri =>
      { round := ri.1 + 1, ord_qubits := pySorted ((lst.drop ri.2).take num) }))

/-- The body of the per-shot loop of `arranging_good_stuff`: split the shot
by `type`, floor-divide the ancilla counts by `rounds` (Python `//` raises
`ZeroDivisionError` on a zero divisor), group each ancilla role by round and
sort the data qubits into a single record.  The `ancx` grouping is evaluated
before the `ancz` grouping, as in the source. -/
def arrange_shot (item_per_shot : List PackedQ) (rounds : Nat) : Except PyErr ShotRec :=
  let x_anc_list := item_per_shot.filter (fun q => q.type == "ancx")
  let z_anc_list := item_per_shot.filter (fun q => q.type == "ancz")
  let data_list := item_per_shot.filter (fun q => q.type == "data")
  if rounds = 0 then .error .zeroDivisionError
  else
    match group_by_round x_anc_list (x_anc_list.length / rounds) with
    | .error e => .error e
    | .ok x_anc_grouped_by_round =>
      match group_by_round z_anc_list (z_anc_list.length / rounds) with
      | .error e => .error e
      | .ok z_anc_grouped_by_round =>
        .ok { ancx := x_anc_grouped_by_round,
              ancz := z_anc_grouped_by_round,
              data := { ord_qubits := pySorted data_list } }

/-- The shot loop of `arranging_good_stuff`, carrying the running shot
counter `shots` (which starts at 1); each shot contributes the entry
`BIG_SORTED_RESULTS[f"shot {shots}"]`, so the result dict is embedded as an
insertion-ordered association list. -/
def arrange_go (rounds : Nat) (shots : Nat) :
    List (List PackedQ) → Except PyErr (List (String × ShotRec))
  | [] => .ok []
  | item_per_shot :: rest =>
    match arrange_shot item_per_shot rounds with
    | .error e => .error e
    | .ok sr =>
      match arrange_go rounds (shots + 1) rest with
      | .error e => .error e
      | .ok tail => .ok (("shot " ++ toString shots, sr) :: tail)

/-- Embedding of `arranging_good_stuff` from `src/good_stuff.py`. -/
def arranging_good_stuff (packed_stuff : List (List PackedQ)) (rounds : Nat) :
    Except PyErr (List (String × ShotRec)) :=
  arrange_go rounds 1 packed_stuff

/-- Validity of one format character: membership in the keys of
`fmt_map = {"x": "ancx", "z": "ancz", "d": "data"}` in `bitstreamer`. -/
def fmt_char_valid (f : Char) : Bool :=
  f == 'x' || f == 'z' || f == 'd'

/-- Lexicographic comparison of char lists by code point, matching Python's
string comparison (used by `sorted(mapped_ordered.keys())`). -/
def chars_le : List Char → List Char → Bool
  | [], _ => true
  | _ :: _, [] => false
  | a :: as_, b :: bs =>
    if a < b then true
    else if b < a then false
    else chars_le as_ bs

/-- Python's `<=` on strings as a relation, for sorting shot keys. -/
def str_le (s t : String) : Prop :=
  chars_le s.data t.data = true

instance : DecidableRel str_le := fun s t =>
  inferInstanceAs (Decidable (chars_le s.data t.data = true))

/-- Embedding of Python's `sorted` on a list of strings (`bitstreamer` sorts
the dict keys; `sorted` is a stable ascending sort, and the keys of a dict
are distinct, so any sort ascending under `str_le` is an exact embedding). -/
def pySortedStr (l : List String) : List String :=
  l.insertionSort str_le

/-- The bit emitted for one qubit dict: `"1" if q["value"] else "0"`. -/
def bit_char (q : PackedQ) : Char :=
  if q.value then '1' else '0'

/-- The bits appended for one ancilla section of a shot: rounds in list
order, `ord_qubits` of each round in list order. -/
def emit_anc (rrs : List RoundRec) : List Char :=
  rrs.flatMap (fun round_data => round_data.ord_qubits.map bit_char)

/-- The bits appended for one shot of `bitstreamer`: sections in the exact
order of the format string; `d` reads the single data record, `x`/`z` read
the ancilla round lists.  The fall-through branch for an invalid character
is unreachable after validation. -/
def emit_shot (fmt : String) (shot : ShotRec) : List Char :=
  fmt.data.flatMap (fun f =>
    if f == 'x' then emit_anc shot.ancx
    else if f == 'z' then emit_anc shot.ancz
    else if f == 'd' then shot.data.ord_qubits.map bit_char
    else [])

/-- Embedding of `bitstreamer` from `src/bitstreamer.py`.  The format string
is validated in full before any output is produced; then shots are visited
in `sorted(mapped_ordered.keys())` order, looking each key back up in the
dict.  In the source a shot dict could lack a section key (`continue`), but
the typed shot record always carries all three sections, so that branch is
dead here; a key produced by `keys()` always looks up successfully in a
dict, and the unreachable `none` case contributes nothing. -/
def bitstreamer (mapped_ordered : List (String × ShotRec)) (fmt : String) :
    Except PyErr String :=
  match fmt.data.find? (fun f => !fmt_char_valid f) with
  | some f => .error (.valueErrorFormat f)
  | none =>
    .ok (String.mk (((pySortedStr (mapped_ordered.map Prod.fst)).flatMap (fun shot_name =>
      match mapped_ordered.lookup shot_name with
      | some shot => emit_shot fmt shot
      | none => []))))

/-- The shots of an arranged result in the order `bitstreamer` visits them:
ascending `sorted` order of their keys, each key looked up in the dict. -/
def shots_in_stream_order (mapped_ordered : List (String × ShotRec)) : List ShotRec :=
  (pySortedStr (mapped_ordered.map Prod.fst)).filterMap
    (fun shot_name => mapped_ordered.lookup shot_name)

/-- Interpretation of bitstream characters back into booleans (`'1' ↦ true`). -/
def bits_to_bools (cs : List Char) : List Bool :=
  cs.map (fun c => c == '1')

/-- Split the front of a boolean list into `n` consecutive chunks of the
given size (the re-chunking step of the round-trip property). -/
def chunks_of (size : Nat) : Nat → List Bool → List (List Bool)
  | 0, _ => []
  | n + 1, l => l.take size :: chunks_of size n (l.drop size)

/-- The per-round and data value lists recovered from one shot's section of
a `"zxd"` bitstream, given the known section sizes: `rounds` chunks of the
per-round ancZ count, then `rounds` chunks of the per-round ancX count, then
the data chunk. -/
def decode_shot_zxd (nz nx nd rounds : Nat) (bits : List Bool) :
    List (List Bool) × List (List Bool) × List Bool :=
  (chunks_of nz rounds bits,
   chunks_of nx rounds (bits.drop (rounds * nz)),
   (bits.drop (rounds * nz + rounds * nx)).take nd)

/-- Re-chunk a whole `"zxd"` bitstream into per-shot section values using the
known section sizes and shot count. -/
def decode_stream_zxd (nz nx nd rounds : Nat) :
    Nat → List Bool → List (List (List Bool) × List (List Bool) × List Bool)
  | 0, _ => []
  | n + 1, bits =>
    decode_shot_zxd nz nx nd rounds (bits.take (rounds * nz + rounds * nx + nd)) ::
      decode_stream_zxd nz nx nd rounds n (bits.drop (rounds * nz + rounds * nx + nd))

/-- The boolean values of one round record, in `ord_qubits` order. -/
def round_values (rr : RoundRec) : List Bool :=
  rr.ord_qubits.map (fun q => q.value)

/-- The per-qubit boolean values of one shot record in `"zxd"` section
order: the ancZ rounds, the ancX rounds, the data record. -/
def shot_values_zxd (sr : ShotRec) :
    List (List Bool) × List (List Bool) × List Bool :=
  (sr.ancz.map round_values, sr.ancx.map round_values,
   sr.data.ord_qubits.map (fun q => q.value))

/-- Uniform-size hypothesis of the round-trip property: the shot record has
`rounds` ancZ rounds of `nz` qubits each, `rounds` ancX rounds of `nx`
qubits each, and `nd` data qubits. -/
def shot_sizes_ok (nz nx nd rounds : Nat) (sr : ShotRec) : Prop :=
  sr.ancz.length = rounds ∧ (∀ rr ∈ sr.ancz, rr.ord_qubits.length = nz) ∧
  sr.ancx.length = rounds ∧ (∀ rr ∈ sr.ancx, rr.ord_qubits.length = nx) ∧
  sr.data.ord_qubits.length = nd

/-- The keys `"shot 1", …, "shot n"` that `arranging_good_stuff` generates,
in insertion (ascending numeric) order. -/
def shot_keys (n : Nat) : List String :=
  (List.range n).map (fun i => "shot " ++ toString (i + 1))

/-- A concrete instance of the CPython set-iteration oracle, used to
instantiate `setIter` in closed statements (the choice is irrelevant there:
the oracle is only consulted on a path whose results are discarded before
the failure that those statements exhibit). -/
def asc_set_iter (s : List Nat) : List Nat :=
  sort_asc s

/-- Instruction fixture for a distance-3, surface-code-shaped circuit:
8 measurement-reset qubits of which 4 are basis-changed, and 9 data qubits,
matching the spec scenario `|measureReset| = 8 = 3² - 1`, `|data| = 9 = 3²`. -/
def fixture_insts_d3 : List Instr :=
  [⟨"H", [1, 3, 5, 7]⟩, ⟨"MR", [1, 2, 3, 4, 5, 6, 7, 8]⟩,
   ⟨"M", [9, 10, 11, 12, 13, 14, 15, 16, 17]⟩]

/-- A shot vector of length 17 = 1·8 + 9, valid for `fixture_insts_d3` with
one round. -/
def fixture_shot17 : List Bool :=
  List.replicate 17 false

/-- A shot vector of length 25 = 2·8 + 9, valid for `fixture_insts_d3` with
two rounds. -/
def fixture_shot25 : List Bool :=
  List.replicate 25 true

/-- A shot vector of length 24, one short of the 25 expected by the
distance-3, two-round scenario. -/
def fixture_shot24 : List Bool :=
  List.replicate 24 true

/-- Instruction fixture in which qubit 0 is both measurement-reset (`MR`)
and plain-measured (`M`), so the scan puts it in `mr_qubits` and in
`m_qubits` at once. -/
def fixture_insts_overlap : List Instr :=
  [⟨"MR", [0]⟩, ⟨"M", [0]⟩]

/-- Shorthand for a packed measurement. -/
def mkPQ (q : Nat) (v : Bool) (t : String) (x y : Int) : PackedQ :=
  ⟨q, v, t, (x, y)⟩

/-- A packed shot with 3 `ancx` entries (not a multiple of 2 rounds),
2 `ancz` entries and 1 data entry. -/
def fixture_shot_uneven : List PackedQ :=
  [mkPQ 1 true "ancx" 0 0, mkPQ 2 false "ancx" 1 0, mkPQ 3 true "ancx" 2 0,
   mkPQ 4 false "ancz" 0 1, mkPQ 5 true "ancz" 1 1, mkPQ 6 false "data" 2 2]

/-- A packed shot with no `ancx` entries at all (an all-`ancz` shot). -/
def fixture_shot_allz : List PackedQ :=
  [mkPQ 4 false "ancz" 0 1, mkPQ 5 true "ancz" 1 1, mkPQ 6 false "data" 2 2]

/-- A packed two-round shot exercising the spatial re-sort: the `ancx` chunk
of each round arrives in descending x order, the data entries contain two
qubits with identical coordinates (qubit 8 before qubit 9) so that
stability is observable. -/
def fixture_shot_sorting : List PackedQ :=
  [mkPQ 1 true "ancx" 2 0, mkPQ 2 false "ancx" 1 1, mkPQ 3 true "ancz" 0 0,
   mkPQ 4 false "ancz" 0 1,
   mkPQ 1 false "ancx" 2 0, mkPQ 2 true "ancx" 1 1, mkPQ 3 false "ancz" 0 0,
   mkPQ 4 true "ancz" 0 1,
   mkPQ 7 true "data" 3 3, mkPQ 8 false "data" 1 0, mkPQ 9 true "data" 1 0]

/-- The arranged result of `[fixture_shot_sorting]` with two rounds,
extracted from the embedding (used to state closed instances). -/
def fixture_arranged_sorting : List (String × ShotRec) :=
  ((arranging_good_stuff [fixture_shot_sorting] 2).toOption).getD []

/-- The single entry of `fixture_arranged_sorting` (key `"shot 1"`). -/
def fixture_sorting_pr : String × ShotRec :=
  fixture_arranged_sorting.getD 0 ("", ⟨[], [], ⟨[]⟩⟩)

/-- Ten packed one-round shots, each with one `ancx`, one `ancz` and one
data entry; only shot 2 (index 1) has a true data value. -/
def fixture_packed10 : List (List PackedQ) :=
  (List.range 10).map (fun i =>
    [mkPQ 0 false "ancx" 0 0, mkPQ 1 false "ancz" 1 0, mkPQ 2 (i == 1) "data" 2 0])

/-- The arranged result of the ten-shot fixture, extracted from the
embedding (its keys are `"shot 1"` … `"shot 10"` in numeric order). -/
def fixture_arranged10 : List (String × ShotRec) :=
  ((arranging_good_stuff fixture_packed10 1).toOption).getD []


/-! Helper lemmas. -/

/-- Enumerating `range n` pairs each index with itself. -/
theorem enum_range_self (n : Nat) :
    (List.range n).enum = (List.range n).map (fun i => (i, i)) := by
  apply List.ext_get
  · simp
  · intro k h1 h2
    simp [List.enum_eq_zip_range]

/-- With a nonzero step, `group_by_round` succeeds and produces one record
per slice start, round indices counting from 1. -/
theorem group_by_round_ok (lst : List PackedQ) (num : Nat) (h : num ≠ 0) :
    group_by_round lst num =
      .ok ((List.range ((lst.length + num - 1) / num)).map (fun k =>
        { round := k + 1, ord_qubits := pySorted ((lst.drop (k * num)).take num) })) := by
  simp only [group_by_round, pyRange, h, if_neg, ite_false, Except.map]
  rw [List.enum_map, enum_range_self]
  simp [Function.comp_def, Prod.map]

/-- With a zero step, `group_by_round` propagates the `range()` failure. -/
theorem group_by_round_err (lst : List PackedQ) (h : num = 0) :
    group_by_round lst num = .error .valueErrorRangeStep := by
  simp [group_by_round, pyRange, h, Except.map]

/-- With a positive round count, `arrange_shot` succeeds exactly when both
ancilla roles have at least `rounds` entries (equivalently, positive
floor-divided per-round sizes). -/
theorem arrange_shot_isOk_iff (item : List PackedQ) (rounds : Nat) (h : rounds ≠ 0) :
    (arrange_shot item rounds).isOk = true ↔
      rounds ≤ (item.filter (fun q => q.type == "ancx")).length ∧
        rounds ≤ (item.filter (fun q => q.type == "ancz")).length := by
  have hpos : 0 < rounds := Nat.pos_of_ne_zero h
  by_cases hx : (item.filter (fun q => q.type == "ancx")).length / rounds = 0
  · have hxlt : (item.filter (fun q => q.type == "ancx")).length < rounds :=
      (Nat.div_eq_zero_iff hpos).mp hx
    simp [arrange_shot, h, group_by_round_err _ hx, Except.isOk, Except.toBool]
    omega
  · by_cases hz : (item.filter (fun q => q.type == "ancz")).length / rounds = 0
    · have hzlt : (item.filter (fun q => q.type == "ancz")).length < rounds :=
        (Nat.div_eq_zero_iff hpos).mp hz
      simp [arrange_shot, h, group_by_round_ok _ _ hx, group_by_round_err _ hz, Except.isOk,
        Except.toBool]
      omega
    · have hxle : rounds ≤ (item.filter (fun q => q.type == "ancx")).length := by
        rcases Nat.lt_or_ge (item.filter (fun q => q.type == "ancx")).length rounds with hlt | hge
        · exact absurd ((Nat.div_eq_zero_iff hpos).mpr hlt) hx
        · exact hge
      have hzle : rounds ≤ (item.filter (fun q => q.type == "ancz")).length := by
        rcases Nat.lt_or_ge (item.filter (fun q => q.type == "ancz")).length rounds with hlt | hge
        · exact absurd ((Nat.div_eq_zero_iff hpos).mpr hlt) hz
        · exact hge
      simp [arrange_shot, h, group_by_round_ok _ _ hx, group_by_round_ok _ _ hz, Except.isOk,
        Except.toBool, hxle, hzle]

/-- With a positive round count, the only failure `arrange_shot` can produce
is the `range()` step-zero `ValueError`. -/
theorem arrange_shot_err_shape (item : List PackedQ) (rounds : Nat) (h : rounds ≠ 0)
    (e : PyErr) (he : arrange_shot item rounds = .error e) : e = .valueErrorRangeStep := by
  by_cases hx : (item.filter (fun q => q.type == "ancx")).length / rounds = 0
  · simp [arrange_shot, h, group_by_round_err _ hx] at he
    exact he.symm
  · by_cases hz : (item.filter (fun q => q.type == "ancz")).length / rounds = 0
    · simp [arrange_shot, h, group_by_round_ok _ _ hx, group_by_round_err _ hz] at he
      exact he.symm
    · simp [arrange_shot, h, group_by_round_ok _ _ hx, group_by_round_ok _ _ hz] at he

/-- The shot loop succeeds exactly when every shot's `arrange_shot` does. -/
theorem arrange_go_isOk_iff (rounds : Nat) :
    ∀ (k : Nat) (packed : List (List PackedQ)),
      (arrange_go rounds k packed).isOk = true ↔
        ∀ item ∈ packed, (arrange_shot item rounds).isOk = true := by
  intro k packed
  induction packed generalizing k with
  | nil => simp [arrange_go, Except.isOk, Except.toBool]
  | cons item rest ih =>
    cases h1 : arrange_shot item rounds with
    | error e => simp [arrange_go, h1, Except.isOk, Except.toBool]
    | ok sr =>
      cases h2 : arrange_go rounds (k + 1) rest with
      | error e =>
        have h3 := ih (k + 1)
        rw [h2] at h3
        simp [Except.isOk, Except.toBool] at h3
        rcases h3 with ⟨it, hit, hbad⟩
        simp [arrange_go, h1, h2, Except.isOk, Except.toBool]
        exact ⟨it, hit, hbad⟩
      | ok tail =>
        have h3 := ih (k + 1)
        rw [h2] at h3
        simp [Except.isOk, Except.toBool] at h3
        simp [arrange_go, h1, h2, Except.isOk, Except.toBool]
        exact fun a ha => h3 a ha

/-- With a positive round count, the only failure the shot loop can
produce is the `range()` step-zero `ValueError`. -/
theorem arrange_go_err_shape (rounds : Nat) (h : rounds ≠ 0) :
    ∀ (k : Nat) (packed : List (List PackedQ)) (e : PyErr),
      arrange_go rounds k packed = .error e → e = .valueErrorRangeStep := by
  intro k packed
  induction packed generalizing k with
  | nil => simp [arrange_go]
  | cons item rest ih =>
    intro e he
    cases h1 : arrange_shot item rounds with
    | error e1 =>
      simp [arrange_go, h1] at he
      exact he ▸ arrange_shot_err_shape item rounds h e1 h1
    | ok sr =>
      cases h2 : arrange_go rounds (k + 1) rest with
      | error e2 =>
        simp [arrange_go, h1, h2] at he
        exact he ▸ ih (k + 1) e2 h2
      | ok tail => simp [arrange_go, h1, h2] at he

/-- Any prefix of valid characters is skipped by the validation scan, which
then reports the first invalid character. -/
theorem find_first_invalid (pre : List Char) (c : Char) (suf : List Char)
    (hpre : ∀ b ∈ pre, fmt_char_valid b = true) (hc : fmt_char_valid c = false) :
    (pre ++ c :: suf).find? (fun f => !fmt_char_valid f) = some c := by
  induction pre with
  | nil => simp [List.find?, hc]
  | cons b bs ih =>
    have hb := hpre b (by simp)
    simp only [List.cons_append, List.find?, hb, Bool.not_true]
    exact ih (fun x hx => hpre x (by simp [hx]))

/-! Claim theorems. -/

/-- C3 (amended): `arranging_good_stuff` performs no divisibility check.
With a positive round count it returns a result exactly when every shot's
`ancx` and `ancz` counts are at least `rounds` (positive floor-divided
per-round sizes), even when those counts are not integer multiples of
`rounds`; it never raises an uneven-round-division error. -/
theorem C3_arranging_succeeds_iff_counts_ge_rounds
    (packed : List (List PackedQ)) (rounds : Nat) (h : 0 < rounds) :
    (arranging_good_stuff packed rounds).isOk = true ↔
      ∀ item ∈ packed,
        rounds ≤ (item.filter (fun q => q.type == "ancx")).length ∧
          rounds ≤ (item.filter (fun q => q.type == "ancz")).length := by
  unfold arranging_good_stuff
  rw [arrange_go_isOk_iff]
  constructor
  · intro hall item hitem
    exact (arrange_shot_isOk_iff item rounds h.ne').mp (hall item hitem)
  · intro hall item hitem
    exact (arrange_shot_isOk_iff item rounds h.ne').mpr (hall item hitem)

/-- C3 counterexample: a shot whose `ancx` count (3) is not an integer
multiple of the round count (2), yet `arranging_good_stuff` returns a result
instead of failing with an uneven-round-division error. -/
theorem C3_counterexample_uneven_returns :
    (fixture_shot_uneven.filter (fun q => q.type == "ancx")).length % 2 ≠ 0 ∧
      (arranging_good_stuff [fixture_shot_uneven] 2).isOk = true := by
  constructor
  · decide
  · rfl

/-- C3 witness: the amended equivalence instantiated at the uneven fixture
with two rounds. -/
theorem C3_witness :
    (arranging_good_stuff [fixture_shot_uneven] 2).isOk = true ↔
      ∀ item ∈ [fixture_shot_uneven],
        2 ≤ (item.filter (fun q => q.type == "ancx")).length ∧
          2 ≤ (item.filter (fun q => q.type == "ancz")).length :=
  C3_arranging_succeeds_iff_counts_ge_rounds [fixture_shot_uneven] 2 (by decide)

/-- C10: whenever some shot gives an ancilla role fewer entries than
`rounds` (in particular an empty role list), the floor-divided per-round
size is 0 and `arranging_good_stuff` fails with the `range()` step-zero
`ValueError` instead of returning a shot record. -/
theorem C10_arranging_range_step_zero
    (packed : List (List PackedQ)) (rounds : Nat) (h : 0 < rounds)
    (hbad : ∃ item ∈ packed,
      (item.filter (fun q => q.type == "ancx")).length < rounds ∨
        (item.filter (fun q => q.type == "ancz")).length < rounds) :
    arranging_good_stuff packed rounds = .error .valueErrorRangeStep := by
  cases hres : arranging_good_stuff packed rounds with
  | ok out =>
    exfalso
    have hok : (arranging_good_stuff packed rounds).isOk = true := by
      rw [hres]; rfl
    unfold arranging_good_stuff at hok
    rw [arrange_go_isOk_iff] at hok
    rcases hbad with ⟨item, hitem, hlt⟩
    have hboth := (arrange_shot_isOk_iff item rounds h.ne').mp (hok item hitem)
    omega
  | error e =>
    have : e = .valueErrorRangeStep := by
      unfold arranging_good_stuff at hres
      exact arrange_go_err_shape rounds h.ne' 1 packed e hres
    rw [this]

/-- C10 witness: a packed shot with no `ancx` entries at all (an all-`ancz`
shot) cannot be arranged with one round. -/
theorem C10_witness :
    arranging_good_stuff [fixture_shot_allz] 1 = .error .valueErrorRangeStep :=
  C10_arranging_range_step_zero [fixture_shot_allz] 1 (by decide) (by decide)

/-- C9: for every measurement batch that passes the length check, calling
`measurement_mapper` with `logging = false` fails with `NameError` on
`mr_only` (assigned only inside the logging branch, read unconditionally by
the metadata construction) instead of returning; the mapper returns
successfully only when `logging = true`. -/
theorem C9_mapper_nameError_without_logging
    (setIter : List Nat → List Nat) (insts : List Instr) (distance rounds : Nat)
    (shots : List (List Bool))
    (h : pyset_eqb (shot_lengths shots) [expected_length distance rounds] = true) :
    measurement_mapper setIter insts distance rounds shots false =
      .error (.nameError "mr_only") := by
  simp [measurement_mapper, h]

/-- C9 witness: a valid single-shot batch for the distance-3, one-round
fixture passes the length check and still fails with the `NameError` when
`logging = false`. -/
theorem C9_witness :
    pyset_eqb (shot_lengths [fixture_shot17]) [expected_length 3 1] = true ∧
      measurement_mapper asc_set_iter fixture_insts_d3 3 1 [fixture_shot17] false =
        .error (.nameError "mr_only") :=
  ⟨by decide, C9_mapper_nameError_without_logging asc_set_iter fixture_insts_d3 3 1
    [fixture_shot17] (by decide)⟩

/-- C6: `bitstreamer` validates the whole format string before emitting any
output.  If every character is drawn from x, z, d it never raises the
invalid-format error; otherwise it fails with the invalid-format error
naming the first offending character, producing no partial bitstream. -/
theorem C6_format_validation (m : List (String × ShotRec)) (fmt : String) :
    ((∀ c ∈ fmt.data, fmt_char_valid c = true) → ∃ s, bitstreamer m fmt = .ok s) ∧
      (∀ (pre : List Char) (c : Char) (suf : List Char),
        fmt.data = pre ++ c :: suf → (∀ b ∈ pre, fmt_char_valid b = true) →
        fmt_char_valid c = false →
        bitstreamer m fmt = .error (.valueErrorFormat c)) := by
  constructor
  · intro hall
    have hnone : fmt.data.find? (fun f => !fmt_char_valid f) = none := by
      rw [List.find?_eq_none]
      intro x hx
      simp [hall x hx]
    simp [bitstreamer, hnone]
  · intro pre c suf hdecomp hpre hc
    have : fmt.data.find? (fun f => !fmt_char_valid f) = some c := by
      rw [hdecomp]
      exact find_first_invalid pre c suf hpre hc
    simp [bitstreamer, this]

/-- C6 witness: the format `"xyz"` fails naming `y` (the spec's
invalid-format scenario), and the default format `"zxd"` never raises the
invalid-format error. -/
theorem C6_witness :
    bitstreamer [] "xyz" = .error (.valueErrorFormat 'y') ∧
      ∃ s, bitstreamer [] "zxd" = .ok s :=
  ⟨(C6_format_validation [] "xyz").2 ['x'] 'y' ['z'] rfl (by decide) (by decide),
   (C6_format_validation [] "zxd").1 (by decide)⟩

/-- Membership after a single Python set insertion. -/
theorem mem_pyset_add [DecidableEq α] (s : List α) (x y : α) :
    y ∈ pyset_add s x ↔ y ∈ s ∨ y = x := by
  unfold pyset_add
  split_ifs with h
  · constructor
    · exact Or.inl
    · rintro (hy | rfl)
      · exact hy
      · exact h
  · simp

/-- Membership after a Python `set.update`. -/
theorem mem_pyset_update [DecidableEq α] (xs : List α) :
    ∀ (s : List α) (y : α), y ∈ pyset_update s xs ↔ y ∈ s ∨ y ∈ xs := by
  induction xs with
  | nil => intro s y; simp [pyset_update]
  | cons x rest ih =>
    intro s y
    have : pyset_update s (x :: rest) = pyset_update (pyset_add s x) rest := rfl
    rw [this, ih, mem_pyset_add]
    simp [or_assoc]

/-- One scan step adds to `mr_qubits` exactly the targets of an `MR`
instruction. -/
theorem scan_step_mr_mem (st : QubitSets) (i : Instr) (q : Nat) :
    q ∈ (scan_step st i).mr_qubits ↔
      q ∈ st.mr_qubits ∨ (i.name = "MR" ∧ q ∈ i.targets) := by
  unfold scan_step
  split_ifs with h1 h2 h3 <;> simp_all [mem_pyset_update]

/-- One scan step adds to `m_qubits` exactly the targets of a non-`MR`
measurement instruction (a name starting with `M` other than `MR`; the `H`
branch is irrelevant because `H` does not start with `M`). -/
theorem scan_step_m_mem (st : QubitSets) (i : Instr) (q : Nat) :
    q ∈ (scan_step st i).m_qubits ↔
      q ∈ st.m_qubits ∨
        (i.name ≠ "MR" ∧ py_startswith i.name "M" = true ∧ q ∈ i.targets) := by
  unfold scan_step
  split_ifs with h1 h2 h3 <;>
    simp_all [mem_pyset_update, show py_startswith "H" "M" = false from rfl]

/-- Membership in the accumulated `mr_qubits` over a whole scan. -/
theorem scan_foldl_mr_mem (insts : List Instr) :
    ∀ (st : QubitSets) (q : Nat),
      q ∈ (insts.foldl scan_step st).mr_qubits ↔
        q ∈ st.mr_qubits ∨ ∃ i ∈ insts, i.name = "MR" ∧ q ∈ i.targets := by
  induction insts with
  | nil => intro st q; simp
  | cons i rest ih =>
    intro st q
    rw [List.foldl_cons, ih (scan_step st i) q, scan_step_mr_mem]
    simp [or_assoc]

/-- Membership in the accumulated `m_qubits` over a whole scan. -/
theorem scan_foldl_m_mem (insts : List Instr) :
    ∀ (st : QubitSets) (q : Nat),
      q ∈ (insts.foldl scan_step st).m_qubits ↔
        q ∈ st.m_qubits ∨
          ∃ i ∈ insts, i.name ≠ "MR" ∧ py_startswith i.name "M" = true ∧ q ∈ i.targets := by
  induction insts with
  | nil => intro st q; simp
  | cons i rest ih =>
    intro st q
    rw [List.foldl_cons, ih (scan_step st i) q, scan_step_m_mem]
    simp [or_assoc]

/-- A qubit is measurement-reset iff some `MR` instruction targets it. -/
theorem mem_scan_mr (insts : List Instr) (q : Nat) :
    q ∈ (scan_instructions insts).mr_qubits ↔
      ∃ i ∈ insts, i.name = "MR" ∧ q ∈ i.targets := by
  unfold scan_instructions
  rw [scan_foldl_mr_mem]
  simp

/-- A qubit is in the measured (`data`) set iff some non-`MR` measurement
instruction targets it. -/
theorem mem_scan_m (insts : List Instr) (q : Nat) :
    q ∈ (scan_instructions insts).m_qubits ↔
      ∃ i ∈ insts, i.name ≠ "MR" ∧ py_startswith i.name "M" = true ∧ q ∈ i.targets := by
  unfold scan_instructions
  rw [scan_foldl_m_mem]
  simp

/-- C7 (amended): for every instruction stream the demultiplexer's role
classification strictly partitions the measurement-reset qubits — the set
labeled `ancx` and the set labeled `ancz` are disjoint and their union is
exactly `mr_qubits`.  The data qubits are disjoint from the
measurement-reset qubits provided no qubit is targeted both by an `MR`
instruction and by a non-`MR` measurement instruction (the scan never
subtracts `mr_qubits` from `m_qubits`, so for overlapping streams the
disjointness fails). -/
theorem C7_role_partition (insts : List Instr) :
    (ancx_set (scan_instructions insts)).toFinset ∪ (ancz_set (scan_instructions insts)).toFinset =
      (scan_instructions insts).mr_qubits.toFinset ∧
    (ancx_set (scan_instructions insts)).toFinset ∩ (ancz_set (scan_instructions insts)).toFinset =
      ∅ ∧
    ((∀ i ∈ insts, i.name = "MR" → ∀ q ∈ i.targets,
        ∀ j ∈ insts, j.name ≠ "MR" → py_startswith j.name "M" = true → q ∉ j.targets) →
      (scan_instructions insts).m_qubits.toFinset ∩
        (scan_instructions insts).mr_qubits.toFinset = ∅) := by
  refine ⟨?_, ?_, ?_⟩
  · ext q
    simp only [ancx_set, ancz_set, Finset.mem_union, List.mem_toFinset, List.mem_filter,
      decide_eq_true_eq]
    tauto
  · ext q
    simp only [ancx_set, ancz_set, Finset.mem_inter, List.mem_toFinset, List.mem_filter,
      decide_eq_true_eq, Finset.not_mem_empty, iff_false]
    tauto
  · intro hsep
    rw [Finset.eq_empty_iff_forall_not_mem]
    intro q hq
    rw [Finset.mem_inter, List.mem_toFinset, List.mem_toFinset, mem_scan_m, mem_scan_mr] at hq
    rcases hq with ⟨⟨j, hj, hjmr, hjM, hjq⟩, ⟨i, hi, himr, hiq⟩⟩
    exact hsep i hi himr q hiq j hj hjmr hjM hjq

/-- C7 counterexample: in the stream `[MR [0], M [0]]` qubit 0 is both
measurement-reset and plain-measured; the scan leaves it in both sets, and
the demultiplexer labels it `data` even though it is a measurement-reset
qubit, so the data/measure-reset disjointness of the claim fails. -/
theorem C7_counterexample_overlap :
    0 ∈ (scan_instructions fixture_insts_overlap).m_qubits ∧
      0 ∈ (scan_instructions fixture_insts_overlap).mr_qubits ∧
      ((measurement_mapper asc_set_iter fixture_insts_overlap 1 1 [[false]] true).toOption.map
          (fun o => o.mapped)) =
        some [[⟨false, 0, "ancz"⟩, ⟨false, 0, "data"⟩]] := by
  refine ⟨by decide, by decide, rfl⟩

/-- C7 witness: the partition statement instantiated at the distance-3
fixture, whose `MR` and `M` instructions target disjoint qubits. -/
theorem C7_witness :
    (ancx_set (scan_instructions fixture_insts_d3)).toFinset ∪
        (ancz_set (scan_instructions fixture_insts_d3)).toFinset =
      (scan_instructions fixture_insts_d3).mr_qubits.toFinset ∧
    (ancx_set (scan_instructions fixture_insts_d3)).toFinset ∩
        (ancz_set (scan_instructions fixture_insts_d3)).toFinset = ∅ ∧
    ((∀ i ∈ fixture_insts_d3, i.name = "MR" → ∀ q ∈ i.targets,
        ∀ j ∈ fixture_insts_d3, j.name ≠ "MR" → py_startswith j.name "M" = true → q ∉ j.targets) →
      (scan_instructions fixture_insts_d3).m_qubits.toFinset ∩
        (scan_instructions fixture_insts_d3).mr_qubits.toFinset = ∅) :=
  C7_role_partition fixture_insts_d3

/-- C1 (code evaluated at the failing input): with `logging = false` the
mapper never sorts the qubit sets — `sorted(...)` is applied only inside
the logging branch — and crashes with `NameError` on `mr_only` before
returning, so the claimed ascending pairing cannot hold regardless of the
logging flag; here it is evaluated on a valid distance-3, two-round batch. -/
theorem C1_failing_input_no_logging :
    measurement_mapper asc_set_iter fixture_insts_d3 3 2 [fixture_shot25] false =
      .error (.nameError "mr_only") := by
  rfl

/-- Flattening a map whose images all have length `n` multiplies lengths. -/
theorem flatten_map_length_const {α β : Type} (f : α → List β) (xs : List α) (n : Nat)
    (h : ∀ x ∈ xs, (f x).length = n) : ((xs.map f).flatten).length = xs.length * n := by
  induction xs with
  | nil => simp
  | cons x rest ih =>
    have hx := h x (by simp)
    have hrest := ih (fun y hy => h y (by simp [hy]))
    simp only [List.map_cons, List.flatten_cons, List.length_append, List.length_cons, hx, hrest]
    ring

/-- Membership in the `lengths` set of a batch. -/
theorem mem_shot_lengths (shots : List (List Bool)) (x : Int) :
    x ∈ shot_lengths shots ↔ ∃ v ∈ shots, (v.length : Int) = x := by
  unfold shot_lengths
  rw [mem_pyset_update]
  simp

/-- Python set equality on the duplicate-free list representation is
extensional equality. -/
theorem pyset_eqb_true_iff [DecidableEq α] (a b : List α) :
    pyset_eqb a b = true ↔ ∀ x, x ∈ a ↔ x ∈ b := by
  unfold pyset_eqb
  rw [Bool.and_eq_true, List.all_eq_true, List.all_eq_true]
  constructor
  · intro ⟨h1, h2⟩ x
    constructor
    · intro hx
      simpa using h1 x hx
    · intro hx
      simpa using h2 x hx
  · intro h
    constructor
    · intro x hx
      simpa using (h x).mp hx
    · intro x hx
      simpa using (h x).mpr hx

/-- A shot of exactly the expected length maps to exactly
`rounds · |mr| + |m|` labeled tuples: each ancilla chunk is full and fully
zipped, and the trailing chunk is the data chunk, fully zipped — nothing is
truncated or padded. -/
theorem map_one_shot_length (sets : QubitSets) (rounds : Nat) (mr_list m_list : List Nat)
    (v : List Bool) (hv : v.length = rounds * mr_list.length + m_list.length)
    (hm0 : 0 < m_list.length) :
    (map_one_shot sets rounds mr_list m_list v).length =
      rounds * mr_list.length + m_list.length := by
  have hlt : rounds * mr_list.length < v.length := by omega
  have hchunk : chunk_list v mr_list.length rounds =
      (List.range rounds).map (fun k => (v.drop (k * mr_list.length)).take mr_list.length) ++
        [v.drop (rounds * mr_list.length)] := by
    unfold chunk_list
    rw [if_pos hlt]
  have hAlen : ((List.range rounds).map
      (fun k => (v.drop (k * mr_list.length)).take mr_list.length)).length = rounds := by
    simp
  unfold map_one_shot
  rw [hchunk, List.take_left' hAlen]
  simp only [List.getLastD_concat]
  rw [List.length_append]
  have hflat : (((List.range rounds).map
        (fun k => (v.drop (k * mr_list.length)).take mr_list.length)).map (fun item =>
          (item.zip mr_list).map (fun i =>
            { value := i.1, qubit := i.2,
              role := if i.2 ∈ sets.h_qubits then "ancx" else "ancz" : LabeledM }))).flatten.length =
      rounds * mr_list.length := by
    rw [flatten_map_length_const _ _ mr_list.length]
    · simp
    · intro item hitem
      rcases List.mem_map.mp hitem with ⟨k, hk, rfl⟩
    
      have hkr : k < rounds := List.mem_range.mp hk
      have hkk : (k + 1) * mr_list.length ≤ rounds * mr_list.length :=
        Nat.mul_le_mul_right mr_list.length hkr
      rw [Nat.succ_mul] at hkk
      simp only [List.length_map, List.length_zip, List.length_take, List.length_drop]
      omega
  rw [hflat]
  have hrest : (v.drop (rounds * mr_list.length)).length = m_list.length := by
    simp only [List.length_drop]
    omega
  simp only [List.length_map, List.length_zip, hrest]
  omega

/-- When the length check passes, the mapper with logging returns the
sorted metadata and the per-shot mapped results. -/
theorem mapper_ok_shape (setIter : List Nat → List Nat) (insts : List Instr)
    (distance rounds : Nat) (shots : List (List Bool))
    (h : pyset_eqb (shot_lengths shots) [expected_length distance rounds] = true) :
    measurement_mapper setIter insts distance rounds shots true =
      .ok { meta := { dataQubits := sort_asc (scan_instructions insts).m_qubits,
                      mrQubits := sort_asc (scan_instructions insts).mr_qubits,
                      hQubits := sort_asc (scan_instructions insts).h_qubits,
                      mrOnly := sort_asc ((scan_instructions insts).mr_qubits.filter
                        (fun q => q ∉ (scan_instructions insts).h_qubits)) },
            mapped := shots.map (map_one_shot (scan_instructions insts) rounds
              (sort_asc (scan_instructions insts).mr_qubits)
              (sort_asc (scan_instructions insts).m_qubits)) } := by
  simp [measurement_mapper, h]

/-- Sorting an ascending-insertion list preserves length. -/
theorem insert_asc_length (a : Nat) (l : List Nat) :
    (insert_asc a l).length = l.length + 1 := by
  induction l with
  | nil => rfl
  | cons b bs ih =>
    unfold insert_asc
    split_ifs <;> simp [ih]

/-- Python's `sorted` preserves the number of elements. -/
theorem sort_asc_length (l : List Nat) : (sort_asc l).length = l.length := by
  induction l with
  | nil => rfl
  | cons a rest ih =>
    unfold sort_asc at ih ⊢
    simp [List.foldr_cons, insert_asc_length, ih]

/-- C2: with role-set sizes matching the distance formula (as they do for
the generated surface-code circuits: `|measureReset| = d² - 1`,
`|data| = d²`), the mapper rejects — with a `RuntimeError` carrying both
the observed lengths and the expected length — every nonempty batch
containing a shot whose length differs from
`rounds · |measureReset| + |data|`, regardless of the logging flag; and it
accepts every batch whose shots all have exactly that length, mapping each
shot to exactly `rounds · |measureReset| + |data|` labeled tuples (no
truncation or padding). -/
theorem C2_length_check (setIter : List Nat → List Nat) (insts : List Instr)
    (distance rounds : Nat) (shots : List (List Bool))
    (hmr : ((scan_instructions insts).mr_qubits.length : Int) = (distance : Int) ^ 2 - 1)
    (hm : ((scan_instructions insts).m_qubits.length : Int) = (distance : Int) ^ 2)
    (hne : shots ≠ []) :
    (∀ logging, (∃ v ∈ shots, (v.length : Int) ≠
        (rounds : Int) * (scan_instructions insts).mr_qubits.length +
          (scan_instructions insts).m_qubits.length) →
      measurement_mapper setIter insts distance rounds shots logging =
        .error (.runtimeError (shot_lengths shots)
          ((rounds : Int) * (scan_instructions insts).mr_qubits.length +
            (scan_instructions insts).m_qubits.length)))
    ∧ ((∀ v ∈ shots, (v.length : Int) =
        (rounds : Int) * (scan_instructions insts).mr_qubits.length +
          (scan_instructions insts).m_qubits.length) →
      ∃ out, measurement_mapper setIter insts distance rounds shots true = .ok out ∧
        out.mapped.length = shots.length ∧
        ∀ ms ∈ out.mapped, ms.length =
          rounds * (scan_instructions insts).mr_qubits.length +
            (scan_instructions insts).m_qubits.length) := by
  have hexp : expected_length distance rounds =
      (rounds : Int) * (scan_instructions insts).mr_qubits.length +
        (scan_instructions insts).m_qubits.length := by
    unfold expected_length
    rw [hmr, hm]
  have hmc : (scan_instructions insts).m_qubits.length =
      (scan_instructions insts).mr_qubits.length + 1 := by
    have h1 := hmr
    have h2 := hm
    generalize (distance : Int) ^ 2 = D at h1 h2
    omega
  constructor
  · rintro logging ⟨v, hv, hvne⟩
    have hne2 : pyset_eqb (shot_lengths shots) [expected_length distance rounds] = false := by
      rcases hb : pyset_eqb (shot_lengths shots) [expected_length distance rounds] with _ | _
      · rfl
      · exfalso
        have hext := (pyset_eqb_true_iff _ _).mp hb ((v.length : Int))
        have hvmem : (v.length : Int) ∈ shot_lengths shots :=
          (mem_shot_lengths _ _).mpr ⟨v, hv, rfl⟩
        have := hext.mp hvmem
        simp only [List.mem_singleton] at this
        rw [hexp] at this
        exact hvne this
    have : measurement_mapper setIter insts distance rounds shots logging =
        .error (.runtimeError (shot_lengths shots) (expected_length distance rounds)) := by
      simp [measurement_mapper, hne2]
    rw [this, hexp]
  · intro hall
    have hlen_eq : pyset_eqb (shot_lengths shots) [expected_length distance rounds] = true := by
      rw [pyset_eqb_true_iff]
      intro x
      rw [mem_shot_lengths]
      simp only [List.mem_singleton]
      constructor
      · rintro ⟨v, hv, rfl⟩
        rw [hexp]
        exact hall v hv
      · intro hx
        obtain ⟨v, hv⟩ := List.exists_mem_of_ne_nil shots hne
        refine ⟨v, hv, ?_⟩
        rw [hall v hv, ← hexp, hx]
    rw [mapper_ok_shape setIter insts distance rounds shots hlen_eq]
    refine ⟨_, rfl, by simp, ?_⟩
    intro ms hms
    rcases List.mem_map.mp hms with ⟨v, hv, rfl⟩
    have hvlen : v.length =
        rounds * (scan_instructions insts).mr_qubits.length +
          (scan_instructions insts).m_qubits.length := by
      have := hall v hv
      omega
    have hgoal : rounds * (scan_instructions insts).mr_qubits.length +
        (scan_instructions insts).m_qubits.length =
        rounds * (sort_asc (scan_instructions insts).mr_qubits).length +
          (sort_asc (scan_instructions insts).m_qubits).length := by
      rw [sort_asc_length, sort_asc_length]
    rw [hgoal]
    apply map_one_shot_length
    · rw [sort_asc_length, sort_asc_length]
      exact hvlen
    · rw [sort_asc_length]
      omega

/-- C2 witness: the spec's mismatched-length scenario — distance 3, two
rounds, a single shot of length 24 against the expected 25 — fails with the
error reporting both 24 and 25; the corresponding length-25 shot is
accepted and maps to 25 labeled tuples. -/
theorem C2_witness :
    measurement_mapper asc_set_iter fixture_insts_d3 3 2 [fixture_shot24] true =
      .error (.runtimeError [(24 : Int)] 25) ∧
    (∃ out, measurement_mapper asc_set_iter fixture_insts_d3 3 2 [fixture_shot25] true =
        .ok out ∧ out.mapped.length = 1 ∧ ∀ ms ∈ out.mapped, ms.length = 25) := by
  constructor
  · have h := (C2_length_check asc_set_iter fixture_insts_d3 3 2 [fixture_shot24]
      (by decide) (by decide) (by decide)).1 true ⟨fixture_shot24, by decide, by decide⟩
    exact h
  · have h := (C2_length_check asc_set_iter fixture_insts_d3 3 2 [fixture_shot25]
      (by decide) (by decide) (by decide)).2 (by decide)
    exact h

/-- Python's `sorted(..., key=(x, y))` output is ascending in the key
order, a permutation of its input, and stable: filtering on any one key
value commutes with sorting (elements with equal keys keep their original
relative order). -/
theorem pySorted_stable_sorted (l : List PackedQ) : stable_sorted_of (pySorted l) l := by
  refine ⟨List.sorted_insertionSort key_le l, List.perm_insertionSort key_le l, ?_⟩
  intro k
  have hself : (l.filter (fun q => decide (q.coords = k))).filter
      (fun q => decide (q.coords = k)) = l.filter (fun q => decide (q.coords = k)) :=
    List.filter_eq_self.mpr (fun a ha => (List.mem_filter.mp ha).2)
  have hpair : (l.filter (fun q => decide (q.coords = k))).Pairwise key_le := by
    apply List.pairwise_of_forall_mem_list
    intro a ha b hb
    have ha2 : a.coords = k := by
      have := (List.mem_filter.mp ha).2
      simpa using this
    have hb2 : b.coords = k := by
      have := (List.mem_filter.mp hb).2
      simpa using this
    unfold key_le
    right
    constructor
    · rw [ha2, hb2]
    · rw [ha2, hb2]
  have hsub : List.Sublist (l.filter (fun q => decide (q.coords = k))) l :=
    List.filter_sublist l
  have h1 : List.Sublist (l.filter (fun q => decide (q.coords = k))) (pySorted l) :=
    List.sublist_insertionSort hpair hsub
  have h2 := h1.filter (fun q => decide (q.coords = k))
  rw [hself] at h2
  have hperm : List.Perm ((pySorted l).filter (fun q => decide (q.coords = k)))
      (l.filter (fun q => decide (q.coords = k))) :=
    (List.perm_insertionSort key_le l).filter _
  exact (h2.eq_of_length hperm.length_eq.symm).symm

/-- Every shot record in a successful `arrange_go` run comes from
`arrange_shot` on some input shot. -/
theorem arrange_go_mem (rounds : Nat) :
    ∀ (k : Nat) (packed : List (List PackedQ)) (out : List (String × ShotRec))
      (pr : String × ShotRec),
      arrange_go rounds k packed = .ok out → pr ∈ out →
      ∃ item ∈ packed, arrange_shot item rounds = .ok pr.2 := by
  intro k packed
  induction packed generalizing k with
  | nil =>
    intro out pr hout hpr
    simp only [arrange_go] at hout
    cases hout
    simp at hpr
  | cons item rest ih =>
    intro out pr hout hpr
    cases h1 : arrange_shot item rounds with
    | error e => simp [arrange_go, h1] at hout
    | ok sr =>
      cases h2 : arrange_go rounds (k + 1) rest with
      | error e => simp [arrange_go, h1, h2] at hout
      | ok tail =>
        simp only [arrange_go, h1, h2] at hout
        cases hout
        rcases List.mem_cons.mp hpr with hhd | htl
        · refine ⟨item, by simp, ?_⟩
          rw [hhd]
          exact h1
        · rcases ih (k + 1) tail pr h2 htl with ⟨it, hit, hsh⟩
          exact ⟨it, by simp [hit], hsh⟩

/-- Shape of a successful `arrange_shot`: each ancilla role's records are
built over `range` with round index `r + 1` and `ord_qubits` the sorted
slice, and the data record is the sorted data list. -/
theorem arrange_shot_shape (item : List PackedQ) (rounds : Nat) (sr : ShotRec)
    (h : arrange_shot item rounds = .ok sr) :
    (∃ n, sr.ancx = (List.range n).map (fun k =>
      { round := k + 1,
        ord_qubits := pySorted (((item.filter (fun q => q.type == "ancx")).drop
          (k * ((item.filter (fun q => q.type == "ancx")).length / rounds))).take
          ((item.filter (fun q => q.type == "ancx")).length / rounds)) })) ∧
    (∃ n, sr.ancz = (List.range n).map (fun k =>
      { round := k + 1,
        ord_qubits := pySorted (((item.filter (fun q => q.type == "ancz")).drop
          (k * ((item.filter (fun q => q.type == "ancz")).length / rounds))).take
          ((item.filter (fun q => q.type == "ancz")).length / rounds)) })) ∧
    sr.data = { ord_qubits := pySorted (item.filter (fun q => q.type == "data")) } := by
  by_cases h0 : rounds = 0
  · simp [arrange_shot, h0] at h
  by_cases hx : (item.filter (fun q => q.type == "ancx")).length / rounds = 0
  · simp [arrange_shot, h0, group_by_round_err _ hx] at h
  by_cases hz : (item.filter (fun q => q.type == "ancz")).length / rounds = 0
  · simp [arrange_shot, h0, group_by_round_ok _ _ hx, group_by_round_err _ hz] at h
  simp only [arrange_shot, h0, if_false, group_by_round_ok _ _ hx, group_by_round_ok _ _ hz,
    Except.ok.injEq] at h
  subst h
  refine ⟨⟨_, rfl⟩, ⟨_, rfl⟩, rfl⟩

/-- C5: in every record produced by `arranging_good_stuff` — each ancilla
round record and the single data record — `ord_qubits` is the corresponding
chunk sorted ascending by the (x, y) coordinate key with y as tie-break,
the sort being a permutation of the chunk that is stable with respect to
the chunk's original positional order. -/
theorem C5_records_stable_sorted (packed : List (List PackedQ)) (rounds : Nat)
    (out : List (String × ShotRec)) (h : arranging_good_stuff packed rounds = .ok out) :
    ∀ pr ∈ out, ∃ item ∈ packed,
      (∀ k (hk : k < pr.2.ancx.length),
        stable_sorted_of ((pr.2.ancx.get ⟨k, hk⟩).ord_qubits)
          (((item.filter (fun q => q.type == "ancx")).drop
            (k * ((item.filter (fun q => q.type == "ancx")).length / rounds))).take
            ((item.filter (fun q => q.type == "ancx")).length / rounds))) ∧
      (∀ k (hk : k < pr.2.ancz.length),
        stable_sorted_of ((pr.2.ancz.get ⟨k, hk⟩).ord_qubits)
          (((item.filter (fun q => q.type == "ancz")).drop
            (k * ((item.filter (fun q => q.type == "ancz")).length / rounds))).take
            ((item.filter (fun q => q.type == "ancz")).length / rounds))) ∧
      stable_sorted_of pr.2.data.ord_qubits (item.filter (fun q => q.type == "data")) := by
  intro pr hpr
  obtain ⟨item, hitem, hsh⟩ := arrange_go_mem rounds 1 packed out pr h hpr
  obtain ⟨⟨nx, hxs⟩, ⟨nz, hzs⟩, hds⟩ := arrange_shot_shape item rounds pr.2 hsh
  refine ⟨item, hitem, ?_, ?_, ?_⟩
  · intro k hk
    have hget := List.get_of_eq hxs ⟨k, hk⟩
    rw [hget]
    simp only [List.get_eq_getElem, Fin.coe_cast, List.getElem_map, List.getElem_range]
    exact pySorted_stable_sorted _
  · intro k hk
    have hget := List.get_of_eq hzs ⟨k, hk⟩
    rw [hget]
    simp only [List.get_eq_getElem, Fin.coe_cast, List.getElem_map, List.getElem_range]
    exact pySorted_stable_sorted _
  · rw [hds]
    exact pySorted_stable_sorted _

/-- C5 witness: the stability statement instantiated on the single shot
record of the two-round sorting fixture (which contains a
duplicate-coordinate pair among its data qubits and unsorted ancilla
chunks). -/
theorem C5_witness :
    ∃ item ∈ [fixture_shot_sorting],
      (∀ k (hk : k < fixture_sorting_pr.2.ancx.length),
        stable_sorted_of ((fixture_sorting_pr.2.ancx.get ⟨k, hk⟩).ord_qubits)
          (((item.filter (fun q => q.type == "ancx")).drop
            (k * ((item.filter (fun q => q.type == "ancx")).length / 2))).take
            ((item.filter (fun q => q.type == "ancx")).length / 2))) ∧
      (∀ k (hk : k < fixture_sorting_pr.2.ancz.length),
        stable_sorted_of ((fixture_sorting_pr.2.ancz.get ⟨k, hk⟩).ord_qubits)
          (((item.filter (fun q => q.type == "ancz")).drop
            (k * ((item.filter (fun q => q.type == "ancz")).length / 2))).take
            ((item.filter (fun q => q.type == "ancz")).length / 2))) ∧
      stable_sorted_of fixture_sorting_pr.2.data.ord_qubits
        (item.filter (fun q => q.type == "data")) :=
  C5_records_stable_sorted [fixture_shot_sorting] 2 fixture_arranged_sorting (by rfl)
    fixture_sorting_pr (by decide)

/-- When the whole format string is valid, `bitstreamer` emits the shots in
sorted-key order with dict lookups. -/
theorem bitstream_emission (m : List (String × ShotRec)) (fmt : String)
    (hv : ∀ c ∈ fmt.data, fmt_char_valid c = true) :
    bitstreamer m fmt = .ok (String.mk ((pySortedStr (m.map Prod.fst)).flatMap
      (fun shot_name =>
        match m.lookup shot_name with
        | some shot => emit_shot fmt shot
        | none => []))) := by
  have hnone : fmt.data.find? (fun f => !fmt_char_valid f) = none := by
    rw [List.find?_eq_none]
    intro x hx
    simp [hv x hx]
  simp [bitstreamer, hnone]

/-- Looking the keys of an association list with distinct keys back up
visits exactly the list's own values in order. -/
theorem lookup_flatMap_self (m : List (String × ShotRec)) (E : ShotRec → List Char)
    (hnd : (m.map Prod.fst).Nodup) :
    (m.map Prod.fst).flatMap (fun k =>
      match m.lookup k with
      | some s => E s
      | none => []) =
    (m.map (fun pr => E pr.2)).flatten := by
  induction m with
  | nil => rfl
  | cons hd tl ih =>
    simp only [List.map_cons, List.nodup_cons] at hnd ⊢
    rcases hnd with ⟨hhd, htl⟩
    rw [List.flatMap_cons, List.flatten_cons]
    have hlook : List.lookup hd.1 (hd :: tl) = some hd.2 := by
      simp [List.lookup]
    rw [hlook]
    congr 1
    have hcong : ∀ k ∈ tl.map Prod.fst,
        (match List.lookup k (hd :: tl) with
         | some s => E s
         | none => []) =
        (match List.lookup k tl with
         | some s => E s
         | none => []) := by
      intro k hk
      have hkne : (k == hd.1) = false := by
        rcases hbeq : k == hd.1 with _ | _
        · rfl
        · exfalso
          exact hhd (by rwa [← eq_of_beq hbeq])
      simp [List.lookup, hkne]
    calc (tl.map Prod.fst).flatMap (fun k =>
            match List.lookup k (hd :: tl) with
            | some s => E s
            | none => [])
        = (tl.map Prod.fst).flatMap (fun k =>
            match List.lookup k tl with
            | some s => E s
            | none => []) := by
          show ((tl.map Prod.fst).map (fun k =>
              match List.lookup k (hd :: tl) with
              | some s => E s
              | none => [])).flatten =
            ((tl.map Prod.fst).map (fun k =>
              match List.lookup k tl with
              | some s => E s
              | none => [])).flatten
          congr 1
          exact List.map_congr_left hcong
      _ = (tl.map (fun pr => E pr.2)).flatten := ih htl

/-- For at most nine shots, sorting the generated keys is the identity
(single-digit numbers sort lexicographically like numerically). -/
theorem pySortedStr_shot_keys_le9 (n : Nat) (hn : n ≤ 9) :
    pySortedStr (shot_keys n) = shot_keys n := by
  interval_cases n <;> rfl

/-- The generated keys are pairwise distinct (up to nine shots). -/
theorem shot_keys_nodup_le9 (n : Nat) (hn : n ≤ 9) : (shot_keys n).Nodup := by
  interval_cases n <;> decide

/-- The keys of a successful `arrange_go` run are `"shot k"`,
`"shot (k+1)"`, … in insertion order. -/
theorem arrange_go_keys (rounds : Nat) :
    ∀ (k : Nat) (packed : List (List PackedQ)) (out : List (String × ShotRec)),
      arrange_go rounds k packed = .ok out →
      out.map Prod.fst = (List.range packed.length).map (fun i => "shot " ++ toString (k + i)) := by
  intro k packed
  induction packed generalizing k with
  | nil =>
    intro out hout
    simp only [arrange_go] at hout
    cases hout
    rfl
  | cons item rest ih =>
    intro out hout
    cases h1 : arrange_shot item rounds with
    | error e => simp [arrange_go, h1] at hout
    | ok sr =>
      cases h2 : arrange_go rounds (k + 1) rest with
      | error e => simp [arrange_go, h1, h2] at hout
      | ok tail =>
        simp only [arrange_go, h1, h2] at hout
        cases hout
        have htail := ih (k + 1) tail h2
        simp only [List.map_cons, htail, List.length_cons, List.range_succ_eq_map,
          List.map_map]
        refine List.cons_eq_cons.mpr ⟨by rw [Nat.add_zero], ?_⟩
        apply List.map_congr_left
        intro i hi
        simp only [Function.comp_def]
        congr 2
        omega

/-- The keys of an arranged result are `"shot 1"`, …, `"shot n"` in
ascending numeric (insertion) order. -/
theorem arranging_keys (packed : List (List PackedQ)) (rounds : Nat)
    (out : List (String × ShotRec)) (h : arranging_good_stuff packed rounds = .ok out) :
    out.map Prod.fst = shot_keys packed.length := by
  unfold arranging_good_stuff at h
  rw [arrange_go_keys rounds 1 packed out h]
  unfold shot_keys
  apply List.map_congr_left
  intro i hi
  rw [Nat.add_comm 1 i]

/-- C4 (amended): `bitstreamer` concatenates the shots of an arranged
result in ascending lexicographic order of their keys; for results with at
most nine shots this coincides with ascending numeric shot order, i.e. the
bitstream is the concatenation of the per-shot sections in the arranged
(insertion) order. -/
theorem C4_bitstream_numeric_order_le9 (packed : List (List PackedQ)) (rounds : Nat)
    (out : List (String × ShotRec)) (fmt : String)
    (h : arranging_good_stuff packed rounds = .ok out) (hn : packed.length ≤ 9)
    (hv : ∀ c ∈ fmt.data, fmt_char_valid c = true) :
    bitstreamer out fmt = .ok (String.mk ((out.map (fun pr => emit_shot fmt pr.2)).flatten)) := by
  have hkeys := arranging_keys packed rounds out h
  rw [bitstream_emission out fmt hv]
  congr 1
  rw [hkeys, pySortedStr_shot_keys_le9 packed.length hn, ← hkeys]
  exact congrArg String.mk
    (lookup_flatMap_self out (emit_shot fmt) (by rw [hkeys]; exact shot_keys_nodup_le9 _ hn))

/-- C4 witness: the two-round sorting fixture (one shot) emitted with the
default format, in insertion order. -/
theorem C4_witness :
    bitstreamer fixture_arranged_sorting "zxd" =
      .ok (String.mk ((fixture_arranged_sorting.map (fun pr => emit_shot "zxd" pr.2)).flatten)) :=
  C4_bitstream_numeric_order_le9 [fixture_shot_sorting] 2 fixture_arranged_sorting "zxd"
    (by rfl) (by decide) (by decide)

/-- C4 counterexample: with ten shots the keys sort lexicographically —
`"shot 10"` before `"shot 2"` — so the bitstream is NOT the ascending
numeric concatenation: only shot 2 carries a true data bit, the numeric
concatenation would be `"0100000000"`, but the emitted stream is
`"0010000000"` (shot 10's bit precedes shot 2's). -/
theorem C4_counterexample_ten_shots :
    arranging_good_stuff fixture_packed10 1 = .ok fixture_arranged10 ∧
      (bitstreamer fixture_arranged10 "d").toOption = some "0010000000" ∧
      (bitstreamer fixture_arranged10 "d").toOption ≠
        some (String.mk ((fixture_arranged10.map (fun pr => emit_shot "d" pr.2)).flatten)) := by
  refine ⟨rfl, rfl, by decide⟩

instance (nz nx nd rounds : Nat) (sr : ShotRec) :
    Decidable (shot_sizes_ok nz nx nd rounds sr) := by
  unfold shot_sizes_ok
  infer_instance

/-- Decoding the characters emitted for a list of qubits recovers their
boolean values. -/
theorem bits_to_bools_map_bit_char (l : List PackedQ) :
    bits_to_bools (l.map bit_char) = l.map (fun q => q.value) := by
  induction l with
  | nil => rfl
  | cons q rest ih =>
    simp only [List.map_cons, bits_to_bools, bit_char] at ih ⊢
    rw [ih]
    cases q.value <;> simp

/-- An ancilla section's characters decode to its per-round value lists. -/
theorem bits_to_bools_emit_anc (rrs : List RoundRec) :
    bits_to_bools (emit_anc rrs) = (rrs.map round_values).flatten := by
  show bits_to_bools ((rrs.map (fun rr => rr.ord_qubits.map bit_char)).flatten) =
    (rrs.map round_values).flatten
  unfold bits_to_bools
  rw [List.map_flatten, List.map_map]
  congr 1
  apply List.map_congr_left
  intro rr _
  exact bits_to_bools_map_bit_char rr.ord_qubits

/-- The `"zxd"` emission of one shot is its three sections in order. -/
theorem emit_shot_zxd (sr : ShotRec) :
    emit_shot "zxd" sr =
      emit_anc sr.ancz ++ (emit_anc sr.ancx ++ sr.data.ord_qubits.map bit_char) := by
  show emit_anc sr.ancz ++ (emit_anc sr.ancx ++ (sr.data.ord_qubits.map bit_char ++ [])) =
    emit_anc sr.ancz ++ (emit_anc sr.ancx ++ sr.data.ord_qubits.map bit_char)
  simp

/-- An ancilla section with uniform round sizes emits `count · size`
characters. -/
theorem emit_anc_length (rrs : List RoundRec) (n : Nat)
    (h : ∀ rr ∈ rrs, rr.ord_qubits.length = n) :
    (emit_anc rrs).length = rrs.length * n := by
  show ((rrs.map (fun rr => rr.ord_qubits.map bit_char)).flatten).length = rrs.length * n
  apply flatten_map_length_const
  intro rr hrr
  simp [h rr hrr]

/-- Re-chunking the concatenation of uniform-size parts recovers the parts. -/
theorem chunks_of_flatten (size : Nat) (parts : List (List Bool)) (rest : List Bool)
    (h : ∀ p ∈ parts, p.length = size) :
    chunks_of size parts.length (parts.flatten ++ rest) = parts := by
  induction parts with
  | nil => rfl
  | cons p ps ih =>
    simp only [List.flatten_cons, List.length_cons, chunks_of, List.append_assoc]
    rw [List.take_left' (h p (by simp)), List.drop_left' (h p (by simp))]
    rw [ih (fun q hq => h q (by simp [hq]))]

/-- Dropping the concatenation of uniform-size parts lands on the rest. -/
theorem drop_flatten_const (size : Nat) (parts : List (List Bool)) (rest : List Bool)
    (h : ∀ p ∈ parts, p.length = size) :
    (parts.flatten ++ rest).drop (parts.length * size) = rest := by
  induction parts with
  | nil => simp
  | cons p ps ih =>
    simp only [List.flatten_cons, List.length_cons, List.append_assoc]
    rw [Nat.succ_mul, Nat.add_comm, ← List.drop_drop, List.drop_left' (h p (by simp))]
    exact ih (fun q hq => h q (by simp [hq]))

/-- Decoding one shot's `"zxd"` section with the correct sizes recovers the
shot's values. -/
theorem decode_shot_of_sizes (nz nx nd rounds : Nat) (sr : ShotRec)
    (hs : shot_sizes_ok nz nx nd rounds sr) :
    decode_shot_zxd nz nx nd rounds (bits_to_bools (emit_shot "zxd" sr)) =
      shot_values_zxd sr := by
  obtain ⟨hzlen, hznz, hxlen, hxnx, hdlen⟩ := hs
  have hzsz : ∀ p ∈ sr.ancz.map round_values, p.length = nz := by
    intro p hp
    rcases List.mem_map.mp hp with ⟨rr, hrr, rfl⟩
    simp [round_values, hznz rr hrr]
  have hxsz : ∀ p ∈ sr.ancx.map round_values, p.length = nx := by
    intro p hp
    rcases List.mem_map.mp hp with ⟨rr, hrr, rfl⟩
    simp [round_values, hxnx rr hrr]
  have hbits : bits_to_bools (emit_shot "zxd" sr) =
      (sr.ancz.map round_values).flatten ++
        ((sr.ancx.map round_values).flatten ++ sr.data.ord_qubits.map (fun q => q.value)) := by
    rw [emit_shot_zxd]
    unfold bits_to_bools at *
    simp only [List.map_append]
    rw [show (emit_anc sr.ancz).map (fun c => c == '1') = bits_to_bools (emit_anc sr.ancz) from rfl,
      show (emit_anc sr.ancx).map (fun c => c == '1') = bits_to_bools (emit_anc sr.ancx) from rfl,
      show (sr.data.ord_qubits.map bit_char).map (fun c => c == '1') =
        bits_to_bools (sr.data.ord_qubits.map bit_char) from rfl]
    rw [bits_to_bools_emit_anc, bits_to_bools_emit_anc, bits_to_bools_map_bit_char]
  rw [hbits]
  unfold decode_shot_zxd shot_values_zxd
  refine congrArg₂ _ ?_ (congrArg₂ _ ?_ ?_)
  · rw [show rounds = (sr.ancz.map round_values).length from by simp [hzlen]]
    exact chunks_of_flatten nz _ _ hzsz
  · rw [show rounds * nz = (sr.ancz.map round_values).length * nz from by simp [hzlen]]
    rw [drop_flatten_const nz _ _ hzsz]
    rw [show rounds = (sr.ancx.map round_values).length from by simp [hxlen]]
    exact chunks_of_flatten nx _ _ hxsz
  · rw [show rounds * nz + rounds * nx = (sr.ancz.map round_values).length * nz +
      (sr.ancx.map round_values).length * nx from by simp [hzlen, hxlen]]
    rw [← List.drop_drop, drop_flatten_const nz _ _ hzsz, drop_flatten_const nx _ _ hxsz]
    rw [show nd = (sr.data.ord_qubits.map (fun q => q.value)).length from by simp [hdlen]]
    exact List.take_length _

/-- One shot with uniform sizes emits exactly
`rounds·nz + rounds·nx + nd` characters. -/
theorem emit_shot_zxd_length (nz nx nd rounds : Nat) (sr : ShotRec)
    (hs : shot_sizes_ok nz nx nd rounds sr) :
    (emit_shot "zxd" sr).length = rounds * nz + rounds * nx + nd := by
  obtain ⟨hzlen, hznz, hxlen, hxnx, hdlen⟩ := hs
  rw [emit_shot_zxd]
  simp only [List.length_append, List.length_map]
  rw [emit_anc_length sr.ancz nz hznz, emit_anc_length sr.ancx nx hxnx, hzlen, hxlen, hdlen]
  omega

/-- Decoding a whole stream of uniform-size shots recovers every shot's
values in stream order. -/
theorem decode_stream_of_sizes (nz nx nd rounds : Nat) (srs : List ShotRec)
    (h : ∀ sr ∈ srs, shot_sizes_ok nz nx nd rounds sr) :
    decode_stream_zxd nz nx nd rounds srs.length
      (bits_to_bools ((srs.map (emit_shot "zxd")).flatten)) =
      srs.map shot_values_zxd := by
  induction srs with
  | nil => rfl
  | cons sr rest ih =>
    have hsr := h sr (by simp)
    have hlen : (bits_to_bools (emit_shot "zxd" sr)).length =
        rounds * nz + rounds * nx + nd := by
      unfold bits_to_bools
      rw [List.length_map]
      exact emit_shot_zxd_length nz nx nd rounds sr hsr
    simp only [List.map_cons, List.flatten_cons, List.length_cons, decode_stream_zxd]
    rw [show bits_to_bools (emit_shot "zxd" sr ++ (rest.map (emit_shot "zxd")).flatten) =
      bits_to_bools (emit_shot "zxd" sr) ++
        bits_to_bools ((rest.map (emit_shot "zxd")).flatten) from List.map_append _ _ _]
    rw [List.take_left' hlen, List.drop_left' hlen]
    rw [decode_shot_of_sizes nz nx nd rounds sr hsr, ih (fun x hx => h x (by simp [hx]))]

/-- Emission over looked-up keys equals emission over the successfully
looked-up shots. -/
theorem flatMap_match_filterMap (keys : List String) (m : List (String × ShotRec))
    (E : ShotRec → List Char) :
    keys.flatMap (fun k =>
      match m.lookup k with
      | some s => E s
      | none => []) =
    ((keys.filterMap (fun k => m.lookup k)).map E).flatten := by
  induction keys with
  | nil => rfl
  | cons k rest ih =>
    cases hk : m.lookup k with
    | none => simp [List.flatMap_cons, List.filterMap_cons, hk, ih]
    | some s => simp [List.flatMap_cons, List.filterMap_cons, hk, ih]

/-- The `"zxd"` bitstream is exactly the concatenated emission of the shots
in stream (sorted-key) order. -/
theorem bitstreamer_zxd_chars (m : List (String × ShotRec)) :
    bitstreamer m "zxd" =
      .ok (String.mk (((shots_in_stream_order m).map (emit_shot "zxd")).flatten)) := by
  rw [bitstream_emission m "zxd" (by decide)]
  exact congrArg (fun l => Except.ok (String.mk l))
    (flatMap_match_filterMap (pySortedStr (m.map Prod.fst)) m (emit_shot "zxd"))

/-- A key of the dict always looks up successfully. -/
theorem lookup_isSome_of_mem_keys (m : List (String × ShotRec)) (k : String)
    (hk : k ∈ m.map Prod.fst) : (m.lookup k).isSome := by
  induction m with
  | nil => simp at hk
  | cons hd tl ih =>
    rcases List.mem_cons.mp hk with h1 | h2
    · have : (k == hd.1) = true := by
        rw [h1]
        simp
      simp [List.lookup, this]
    · rcases hbeq : k == hd.1 with _ | _
      · simpa [List.lookup, hbeq] using ih h2
      · simp [List.lookup, hbeq]

/-- Filtering a map over a list where every image is `some` keeps the
length. -/
theorem filterMap_length_all_some {α β : Type} (f : α → Option β) (l : List α)
    (h : ∀ x ∈ l, (f x).isSome) : (l.filterMap f).length = l.length := by
  induction l with
  | nil => rfl
  | cons x rest ih =>
    cases hx : f x with
    | none =>
      exfalso
      have := h x (by simp)
      rw [hx] at this
      simp at this
    | some y =>
      simp only [List.filterMap_cons, hx, List.length_cons]
      rw [ih (fun z hz => h z (by simp [hz]))]

/-- The stream visits as many shots as the dict holds. -/
theorem shots_in_stream_order_length (m : List (String × ShotRec)) :
    (shots_in_stream_order m).length = m.length := by
  unfold shots_in_stream_order
  rw [filterMap_length_all_some]
  · unfold pySortedStr
    rw [(List.perm_insertionSort str_le (m.map Prod.fst)).length_eq]
    simp
  · intro k hk
    apply lookup_isSome_of_mem_keys
    exact (List.perm_insertionSort str_le (m.map Prod.fst)).mem_iff.mp hk

/-- A successful lookup returns one of the dict's values. -/
theorem lookup_mem_values (m : List (String × ShotRec)) (k : String) (v : ShotRec)
    (h : m.lookup k = some v) : ∃ pr ∈ m, pr.2 = v := by
  induction m with
  | nil => simp [List.lookup] at h
  | cons hd tl ih =>
    rcases hbeq : k == hd.1 with _ | _
    · rcases ih (by simpa [List.lookup, hbeq] using h) with ⟨pr, hpr, hv⟩
      exact ⟨pr, by simp [hpr], hv⟩
    · have : some hd.2 = some v := by simpa [List.lookup, hbeq] using h
      exact ⟨hd, by simp, by injection this⟩

/-- C8: round-trip — encoding an arranged result to a `"zxd"` bitstream and
re-chunking the string with the known section sizes (per-round ancZ count,
per-round ancX count, data count, rounds, shot count) reproduces every
shot's per-qubit boolean values in the same relative order as its
`ord_qubits` sequences, shot by shot in stream order. -/
theorem C8_round_trip (m : List (String × ShotRec)) (nz nx nd rounds : Nat) (s : String)
    (hsizes : ∀ pr ∈ m, shot_sizes_ok nz nx nd rounds pr.2)
    (henc : bitstreamer m "zxd" = .ok s) :
    decode_stream_zxd nz nx nd rounds m.length (bits_to_bools s.data) =
      (shots_in_stream_order m).map shot_values_zxd := by
  rw [bitstreamer_zxd_chars] at henc
  have hs : s = String.mk (((shots_in_stream_order m).map (emit_shot "zxd")).flatten) :=
    (Except.ok.inj henc).symm
  have hsizes2 : ∀ sr ∈ shots_in_stream_order m, shot_sizes_ok nz nx nd rounds sr := by
    intro sr hsr
    unfold shots_in_stream_order at hsr
    rcases List.mem_filterMap.mp hsr with ⟨k, _, hlook⟩
    rcases lookup_mem_values m k sr hlook with ⟨pr, hpr, hv⟩
    rw [← hv]
    exact hsizes pr hpr
  rw [hs, ← shots_in_stream_order_length m]
  exact decode_stream_of_sizes nz nx nd rounds (shots_in_stream_order m) hsizes2

/-- C8 witness: the two-round sorting fixture encodes to the 11-character
stream `"10010110011"` and decodes back to its per-round and data values
with sizes nz = nx = 2, nd = 3, rounds = 2. -/
theorem C8_witness :
    decode_stream_zxd 2 2 3 2 fixture_arranged_sorting.length
      (bits_to_bools (String.data "10010110011")) =
      (shots_in_stream_order fixture_arranged_sorting).map shot_values_zxd :=
  C8_round_trip fixture_arranged_sorting 2 2 3 2 "10010110011" (by decide) (by rfl)
